import Mathlib

/-!
Verification of the universe-diff engine (unidiff.c) of this repository.

The engine is embedded shallowly: the XML document is a tree value, the
global diff stack and the universe are threaded explicitly as a
`GameState`, machine return codes become `Int`, fallible world mutators
return `Option Universe`, and the resource-release behaviour of
`diff_apply` is recorded in boolean fields of its result.

External collaborators that are not part of the excerpted sources
(the `space.c` world mutators, `log.h` logging, libc `atoi`) are modelled
from the specification; each such definition carries a comment saying so.
-/

set_option maxHeartbeats 1000000

/-- A parsed XML element: tag, attributes, text content, child elements.
Mirrors the small node/attribute-reading interface (`xml_isNode`,
`xmlr_attr`, `xml_get`, child iteration) that unidiff.c consumes. -/
inductive XmlNode : Type where
  | mk : String → List (String × String) → String → List XmlNode → XmlNode

def XmlNode.tag : XmlNode → String
  | .mk t _ _ _ => t

def XmlNode.attrs : XmlNode → List (String × String)
  | .mk _ a _ _ => a

def XmlNode.text : XmlNode → String
  | .mk _ _ x _ => x

def XmlNode.children : XmlNode → List XmlNode
  | .mk _ _ _ c => c

/-- `xmlr_attr`: first attribute with the given key, `none` models NULL. -/
def XmlNode.attr (n : XmlNode) (k : String) : Option String :=
  (n.attrs.find? (fun p => p.1 == k)).map Prod.snd

/-- Modelled from the spec: libc `atoi` (used for the `chance` attribute):
skip leading whitespace, optional sign, then a run of decimal digits;
zero when no digits are present. -/
def isSpaceChar (c : Char) : Bool :=
  c == ' ' || c == '\t' || c == '\n' || c == '\r' || c == Char.ofNat 11 || c == Char.ofNat 12

def atoiLoop : List Char → Int → Int
  | [], acc => acc
  | c :: cs, acc => if c.isDigit then atoiLoop cs (acc * 10 + ((c.toNat - 48 : Nat) : Int)) else acc

def atoi (s : String) : Int :=
  match s.data.dropWhile isSpaceChar with
  | '-' :: cs => - atoiLoop cs 0
  | '+' :: cs => atoiLoop cs 0
  | cs => atoiLoop cs 0

/- Generic first-occurrence list operations used by the world model. -/

section GenList

variable {α : Type} [DecidableEq α]

/-- Number of occurrences of `a` in `l`, as an integer. -/
def countOcc : List α → α → Int
  | [], _ => 0
  | x :: xs, a => (if x = a then 1 else 0) + countOcc xs a

/-- Membership test. -/
def memElem : List α → α → Bool
  | [], _ => false
  | x :: xs, a => if x = a then true else memElem xs a

/-- Remove the first occurrence of `a` from `l`. -/
def removeFirst : List α → α → List α
  | [], _ => []
  | x :: xs, a => if x = a then xs else x :: removeFirst xs a

end GenList

/-- `UniHunkTargetType_t`. -/
inductive UniHunkTargetType : Type where
  | NONE
  | SYSTEM
deriving DecidableEq, Repr

/-- `UniHunkTarget_t`; `name : Option String` models the `char *` union
member (`none` models NULL). -/
structure UniHunkTarget where
  type : UniHunkTargetType
  name : Option String
deriving DecidableEq, Repr

/-- `UniHunkType_t`. -/
inductive UniHunkType : Type where
  | NONE
  | PLANET_ADD
  | PLANET_REMOVE
  | FLEET_ADD
  | FLEET_REMOVE
deriving DecidableEq, Repr

/-- `SystemFleet` payload of a fleet hunk. Modelled from the spec:
`fleet` is the fleet-definition reference produced by `fleet_get` on the
`name` attribute (modelled as the name string itself), `chance` the
integer spawn chance. -/
structure SystemFleet where
  fleet : String
  chance : Int
deriving DecidableEq, Repr

/-- The `union { char *name; SystemFleet fleet; }` payload of `UniHunk_t`.
In every hunk the engine constructs, the active variant matches the hunk
type. -/
inductive UniHunkPayload : Type where
  | pname : Option String → UniHunkPayload
  | fleet : SystemFleet → UniHunkPayload
deriving DecidableEq, Repr

/-- `UniHunk_t`. -/
structure UniHunk where
  target : UniHunkTarget
  type : UniHunkType
  u : UniHunkPayload
deriving DecidableEq, Repr

/-- `UniDiff_t`: diff `name` (attribute value, `none` models NULL) plus the
applied and failed hunk sequences. -/
structure UniDiff where
  name : Option String
  applied : List UniHunk
  failed : List UniHunk
deriving DecidableEq, Repr

/-- One star system of the world model: its name, planet names, fleets. -/
structure StarSystem where
  name : String
  planets : List String
  fleets : List SystemFleet
deriving DecidableEq, Repr

/-- The world model: the ordered collection of systems. -/
abbrev Universe := List StarSystem

/-- The process-wide mutable state unidiff.c touches: the diff stack
(`diff_stack`/`diff_nstack`) and the universe behind the world-mutation
interface. -/
structure GameState where
  stack : List UniDiff
  univ : Universe
deriving DecidableEq, Repr

/- World-mutation interface. The implementations live in space.c, which is
not part of the excerpted sources, so they are modelled from the spec:
`resolveSystem(locator)` finds the (first) system with the given name and
yields NotFound otherwise; `addPlanet`/`addFleet` append the item to the
resolved system; `removePlanet`/`removeFleet` fail when the item is
already absent and otherwise drop its first occurrence. A NULL locator or
payload name predictably fails at the mutation step. -/

/-- Modelled from the spec: `addPlanet` on the first system named `ts`. -/
def sys_addPlanetAux : Universe → String → String → Option Universe
  | [], _, _ => none
  | sys :: rest, ts, pn =>
    if sys.name = ts then some ({ sys with planets := sys.planets ++ [pn] } :: rest)
    else (sys_addPlanetAux rest ts pn).map (sys :: ·)

/-- Modelled from the spec: `removePlanet`; fails when already absent. -/
def sys_rmPlanetAux : Universe → String → String → Option Universe
  | [], _, _ => none
  | sys :: rest, ts, pn =>
    if sys.name = ts then
      (if memElem sys.planets pn then
        some ({ sys with planets := removeFirst sys.planets pn } :: rest)
      else none)
    else (sys_rmPlanetAux rest ts pn).map (sys :: ·)

/-- Modelled from the spec: `addFleet` on the first system named `ts`. -/
def sys_addFleetAux : Universe → String → SystemFleet → Option Universe
  | [], _, _ => none
  | sys :: rest, ts, f =>
    if sys.name = ts then some ({ sys with fleets := sys.fleets ++ [f] } :: rest)
    else (sys_addFleetAux rest ts f).map (sys :: ·)

/-- Modelled from the spec: `removeFleet`; fails when already absent. -/
def sys_rmFleetAux : Universe → String → SystemFleet → Option Universe
  | [], _, _ => none
  | sys :: rest, ts, f =>
    if sys.name = ts then
      (if memElem sys.fleets f then
        some ({ sys with fleets := removeFirst sys.fleets f } :: rest)
      else none)
    else (sys_rmFleetAux rest ts f).map (sys :: ·)

def system_addPlanet (u : Universe) (sn pn : Option String) : Option Universe :=
  match sn, pn with
  | some ts, some p => sys_addPlanetAux u ts p
  | _, _ => none

def system_rmPlanet (u : Universe) (sn pn : Option String) : Option Universe :=
  match sn, pn with
  | some ts, some p => sys_rmPlanetAux u ts p
  | _, _ => none

def system_addFleet (u : Universe) (sn : Option String) (f : SystemFleet) : Option Universe :=
  match sn with
  | some ts => sys_addFleetAux u ts f
  | none => none

def system_rmFleet (u : Universe) (sn : Option String) (f : SystemFleet) : Option Universe :=
  match sn with
  | some ts => sys_rmFleetAux u ts f
  | none => none

/-- `diff_patchHunk`: dispatch one hunk to the world-mutation interface.
`none` models the negative return value. The default branch (unknown hunk
type, which in C also covers a payload that does not match the type) warns
and returns -1. -/
def diff_patchHunk (h : UniHunk) (u : Universe) : Option Universe :=
  match h.type, h.u with
  | .PLANET_ADD, .pname p => system_addPlanet u h.target.name p
  | .PLANET_REMOVE, .pname p => system_rmPlanet u h.target.name p
  | .FLEET_ADD, .fleet f => system_addFleet u h.target.name f
  | .FLEET_REMOVE, .fleet f => system_rmFleet u h.target.name f
  | _, _ => none

/-- Observers of the world model, used to state "planet set" properties. -/
def univPlanetCount : Universe → String → String → Int
  | [], _, _ => 0
  | sys :: rest, s, p => if sys.name = s then countOcc sys.planets p else univPlanetCount rest s p

def univFleetCount : Universe → String → SystemFleet → Int
  | [], _, _ => 0
  | sys :: rest, s, f => if sys.name = s then countOcc sys.fleets f else univFleetCount rest s f

def univHasPlanet : Universe → String → String → Bool
  | [], _, _ => false
  | sys :: rest, s, p => if sys.name = s then memElem sys.planets p else univHasPlanet rest s p

def univHasFleet : Universe → String → SystemFleet → Bool
  | [], _, _ => false
  | sys :: rest, s, f => if sys.name = s then memElem sys.fleets f else univHasFleet rest s f

/- Diff stack bookkeeping. -/

/-- `diff_get`: linear scan for the first diff with the given name. -/
def diff_get (name : String) : List UniDiff → Option UniDiff
  | [] => none
  | d :: ds => if d.name = some name then some d else diff_get name ds

/-- `diff_isApplied`. -/
def diff_isApplied (name : String) (stack : List UniDiff) : Bool :=
  (diff_get name stack).isSome

/-- Stack compaction of `diff_removeDiff`: drop the first diff with the
given name (the element `diff_get` located), preserving relative order. -/
def diff_removeFromStack (name : String) : List UniDiff → List UniDiff
  | [] => []
  | d :: ds => if d.name = some name then ds else d :: diff_removeFromStack name ds

/- Patch engine. -/

/-- The local state of one `diff_patch` call: the universe, the applied and
failed sequences of the diff under construction, and the single reused
stack variable `hunk` (only the `"add"`/`"remove"` branches overwrite its
type field, so the type otherwise persists across loop iterations). -/
structure PatchAcc where
  univ : Universe
  applied : List UniHunk
  failed : List UniHunk
  hvar : UniHunk
deriving DecidableEq, Repr

/-- The hunk built for a `planet` element: target copied from the
enclosing `system` node, payload from the `name` attribute, type set only
when the text content is `"add"` or `"remove"` (otherwise the previous
contents of the reused variable persist). -/
def diff_planetHunk (tn : Option String) (cur : XmlNode) (prev : UniHunk) : UniHunk :=
  { target := ⟨.SYSTEM, tn⟩
    type := if cur.text = "add" then .PLANET_ADD
            else if cur.text = "remove" then .PLANET_REMOVE
            else prev.type
    u := .pname (cur.attr "name") }

/-- The hunk built for a `fleet` element: fleet reference from the `name`
attribute via `fleet_get`, chance from `atoi` on the `chance` attribute,
type handled as for planets. (A missing attribute is NULL in C, with
undefined behaviour in `fleet_get`/`atoi`; modelled as the empty string.) -/
def diff_fleetHunk (tn : Option String) (cur : XmlNode) (prev : UniHunk) : UniHunk :=
  { target := ⟨.SYSTEM, tn⟩
    type := if cur.text = "add" then .FLEET_ADD
            else if cur.text = "remove" then .FLEET_REMOVE
            else prev.type
    u := .fleet ⟨(cur.attr "name").getD "", atoi ((cur.attr "chance").getD "")⟩ }

/-- Apply-as-you-parse for one `planet` element: build the hunk, apply it
immediately, and route it to `applied` (`diff_hunkSuccess`) or `failed`
(`diff_hunkFailed`). -/
def diff_patchPlanetNode (tn : Option String) (cur : XmlNode) (a : PatchAcc) : PatchAcc :=
  let h := diff_planetHunk tn cur a.hvar
  match diff_patchHunk h a.univ with
  | some u2 => { a with univ := u2, applied := a.applied ++ [h], hvar := h }
  | none => { a with failed := a.failed ++ [h], hvar := h }

/-- Apply-as-you-parse for one `fleet` element. -/
def diff_patchFleetNode (tn : Option String) (cur : XmlNode) (a : PatchAcc) : PatchAcc :=
  let h := diff_fleetHunk tn cur a.hvar
  match diff_patchHunk h a.univ with
  | some u2 => { a with univ := u2, applied := a.applied ++ [h], hvar := h }
  | none => { a with failed := a.failed ++ [h], hvar := h }

/-- One child of a `system` element. -/
def diff_patchSystemChild (tn : Option String) (a : PatchAcc) (cur : XmlNode) : PatchAcc :=
  if cur.tag = "planet" then diff_patchPlanetNode tn cur a
  else if cur.tag = "fleet" then diff_patchFleetNode tn cur a
  else a

/-- One child of the `unidiff` element: a `system` node sets the shared
target locator from its `name` attribute and processes its children. -/
def diff_patchNode (a : PatchAcc) (node : XmlNode) : PatchAcc :=
  if node.tag = "system" then
    node.children.foldl (diff_patchSystemChild (node.attr "name")) a
  else a

/-- `diff_patch`: allocate a new diff record on the stack
(`diff_newDiff` appends), name it from the `name` attribute, process every
child node, and leave the applied/failed hunks in the record. Returns 0 in
C unconditionally (the trailing loop only logs failed hunks). -/
def diff_patch (parent : XmlNode) (st : GameState) (h0 : UniHunk) : GameState :=
  let a := parent.children.foldl diff_patchNode ⟨st.univ, [], [], h0⟩
  { stack := st.stack ++ [⟨parent.attr "name", a.applied, a.failed⟩], univ := a.univ }

/-- The scan loop of `diff_apply`: first `unidiff` child whose `name`
attribute equals the requested name. -/
def diff_findUnidiff (nodes : List XmlNode) (name : String) : Option XmlNode :=
  match nodes with
  | [] => none
  | n :: rest =>
    if n.tag = "unidiff" ∧ n.attr "name" = some name then some n
    else diff_findUnidiff rest name

/-- Result of one `diff_apply` call. Besides the return code and the new
state it records whether the definitions document was read
(`pack_readfile`/`xmlParseMemory` ran), whether `xmlFreeDoc` and
`free(buf)` ran before returning, and whether the not-found warning was
issued. -/
structure ApplyResult where
  ret : Int
  st : GameState
  docLoaded : Bool
  docFreed : Bool
  bufFreed : Bool
  warned : Bool
deriving DecidableEq, Repr

/-- `diff_apply`. The already-applied check precedes the document read.
The two malformed-document branches log via `ERR` — modelled from the
spec as logging only — and return 0 without releasing the document or the
buffer, exactly as the C code does. The found branch patches, releases
both resources and returns 0; the fall-through warns and returns -1 after
releasing both. -/
def diff_apply (doc : XmlNode) (name : String) (st : GameState) (h0 : UniHunk) : ApplyResult :=
  if diff_isApplied name st.stack then ⟨0, st, false, false, false, false⟩
  else if doc.tag ≠ "unidiffs" then ⟨0, st, true, false, false, false⟩
  else if doc.children.isEmpty then ⟨0, st, true, false, false, false⟩
  else
    match diff_findUnidiff doc.children name with
    | some nd => ⟨0, diff_patch nd st h0, true, true, true, false⟩
    | none => ⟨-1, st, true, true, true, true⟩

/- Removal. -/

/-- The type inversion switch inside `diff_removeDiff`; the default case
warns and `continue`s, modelled as `none`. -/
def diff_invertForRevert : UniHunkType → Option UniHunkType
  | .PLANET_ADD => some .PLANET_REMOVE
  | .PLANET_REMOVE => some .PLANET_ADD
  | .FLEET_ADD => some .FLEET_REMOVE
  | .FLEET_REMOVE => some .FLEET_ADD
  | .NONE => none

/-- The revert loop of `diff_removeDiff`: walk `applied` from index 0
upward, invert each hunk's type and re-apply it best-effort (a failed
re-application is only logged). Returns the final universe together with
the sequence of inverted hunks handed to `diff_patchHunk`, in call order. -/
def diff_revertHunks : List UniHunk → Universe → Universe × List UniHunk
  | [], u => (u, [])
  | h :: hs, u =>
    match diff_invertForRevert h.type with
    | none => diff_revertHunks hs u
    | some t =>
      let h2 : UniHunk := { h with type := t }
      let u2 := (diff_patchHunk h2 u).getD u
      let r := diff_revertHunks hs u2
      (r.1, h2 :: r.2)

/-- `diff_remove`: locate the diff by name; when absent do nothing, else
run `diff_removeDiff` on it (revert loop, cleanup, stack compaction). -/
def diff_remove (name : String) (st : GameState) : GameState :=
  match diff_get name st.stack with
  | none => st
  | some d =>
    { stack := diff_removeFromStack name st.stack
      univ := (diff_revertHunks d.applied st.univ).1 }

/-- `diff_clear` repeatedly removes the last diff of the stack until it is
empty; folding `diff_removeDiff` over the reversed stack is that loop. -/
def diff_clearAux : List UniDiff → Universe → Universe
  | [], u => u
  | d :: ds, u => diff_clearAux ds (diff_revertHunks d.applied u).1

def diff_clear (st : GameState) : GameState :=
  { stack := [], univ := diff_clearAux st.stack.reverse st.univ }

/- Persistence adapter. -/

/-- `diff_save`: a `diffs` element holding one `diff` text element per
active diff, in stack order. (`xmlw_elem` writes the raw `char *` name;
a NULL name would be undefined behaviour, modelled as the empty string.) -/
def diff_save (stack : List UniDiff) : XmlNode :=
  .mk "diffs" [] "" (stack.map (fun d => .mk "diff" [] (d.name.getD "") []))

/-- Inner loop of `diff_load` over one `diffs` element. -/
def diff_loadDiffsNode (defs : XmlNode) (h0 : UniHunk) (st : GameState) (node : XmlNode) : GameState :=
  node.children.foldl
    (fun s cur => if cur.tag = "diff" then (diff_apply defs cur.text s h0).st else s) st

/-- `diff_load`: clear the whole stack, then re-apply every `diff` entry
found under a `diffs` child of `parent`, reading the same definitions
document `defs` for each apply. -/
def diff_load (defs : XmlNode) (parent : XmlNode) (st : GameState) (h0 : UniHunk) : GameState :=
  parent.children.foldl
    (fun s node => if node.tag = "diffs" then diff_loadDiffsNode defs h0 s node else s)
    (diff_clear st)

/- Derived pure operations used in theorem statements. -/

/-- The hunk inversion of §4.1: swap PlanetAdd with PlanetRemove and
FleetAdd with FleetRemove, target and payload unchanged. -/
def hunk_invertType : UniHunkType → UniHunkType
  | .PLANET_ADD => .PLANET_REMOVE
  | .PLANET_REMOVE => .PLANET_ADD
  | .FLEET_ADD => .FLEET_REMOVE
  | .FLEET_REMOVE => .FLEET_ADD
  | .NONE => .NONE

def hunk_invert (h : UniHunk) : UniHunk :=
  { h with type := hunk_invertType h.type }

/-- Strict sequential application of a hunk list: fails as soon as one
hunk fails. Used to phrase "every hunk succeeds" hypotheses. -/
def applyHunkList : List UniHunk → Universe → Option Universe
  | [], u => some u
  | h :: hs, u => (diff_patchHunk h u).bind (applyHunkList hs)

/-! ## Counting lemmas for the generic list operations -/

section GenListLemmas

variable {α : Type} [DecidableEq α]

lemma countOcc_nonneg (l : List α) (a : α) : 0 ≤ countOcc l a := by
  induction l with
  | nil => simp [countOcc]
  | cons x xs ih => simp only [countOcc]; split <;> omega

lemma countOcc_append_singleton (l : List α) (x a : α) :
    countOcc (l ++ [x]) a = countOcc l a + (if x = a then 1 else 0) := by
  induction l with
  | nil => simp [countOcc]
  | cons y ys ih =>
    simp only [List.cons_append, countOcc, List.append_eq] at ih ⊢
    rw [ih]; ring

lemma memElem_iff_pos (l : List α) (a : α) : memElem l a = true ↔ 0 < countOcc l a := by
  induction l with
  | nil => simp [memElem, countOcc]
  | cons x xs ih =>
    simp only [memElem, countOcc]
    by_cases hx : x = a
    · simp only [if_pos hx]
      have := countOcc_nonneg xs a
      constructor
      · intro _; omega
      · intro _; trivial
    · simp only [if_neg hx, ih]
      constructor
      · intro h; omega
      · intro h; omega

lemma countOcc_removeFirst (l : List α) (a b : α) (h : memElem l a = true) :
    countOcc (removeFirst l a) b = countOcc l b - (if a = b then 1 else 0) := by
  induction l with
  | nil => simp [memElem] at h
  | cons x xs ih =>
    by_cases hx : x = a
    · subst hx
      simp only [removeFirst, if_true, ite_true, eq_self_iff_true]
      simp only [countOcc]
      ring
    · simp only [memElem, if_neg hx] at h
      simp only [removeFirst, if_neg hx, countOcc, ih h]
      ring

end GenListLemmas

/-! ## Effect of each world mutator on the per-system item counts -/

lemma addPlanet_planetCount (ts pn : String) :
    ∀ (u u2 : Universe), sys_addPlanetAux u ts pn = some u2 →
    ∀ s p, univPlanetCount u2 s p = univPlanetCount u s p + (if ts = s ∧ pn = p then 1 else 0) := by
  intro u
  induction u with
  | nil => intro u2 h; simp [sys_addPlanetAux] at h
  | cons sys rest ih =>
    intro u2 h s p
    by_cases hts : sys.name = ts
    · simp only [sys_addPlanetAux, if_pos hts, Option.some.injEq] at h
      subst h
      simp only [univPlanetCount]
      by_cases hs : sys.name = s
      · have hname : ({ sys with planets := sys.planets ++ [pn] } : StarSystem).name = s := hs
        rw [if_pos hname, if_pos hs]
        have hts2 : ts = s := hts.symm.trans hs
        show countOcc (sys.planets ++ [pn]) p = _
        rw [countOcc_append_singleton]
        simp [hts2]
      · have hname : ({ sys with planets := sys.planets ++ [pn] } : StarSystem).name ≠ s := hs
        rw [if_neg hname, if_neg hs]
        have : ¬ (ts = s ∧ pn = p) := by
          intro ⟨h1, _⟩; exact hs (hts.symm ▸ h1)
        simp [this]
    · simp only [sys_addPlanetAux, if_neg hts] at h
      cases hrec : sys_addPlanetAux rest ts pn with
      | none => rw [hrec] at h; simp at h
      | some u3 =>
        rw [hrec] at h
        simp only [Option.map_some', Option.some.injEq] at h
        subst h
        simp only [univPlanetCount]
        by_cases hs : sys.name = s
        · rw [if_pos hs, if_pos hs]
          have : ¬ (ts = s ∧ pn = p) := by
            intro ⟨h1, _⟩; exact hts (h1 ▸ hs)
          simp [this]
        · rw [if_neg hs, if_neg hs]
          exact ih u3 hrec s p

lemma addPlanet_fleetCount (ts pn : String) :
    ∀ (u u2 : Universe), sys_addPlanetAux u ts pn = some u2 →
    ∀ s f, univFleetCount u2 s f = univFleetCount u s f := by
  intro u
  induction u with
  | nil => intro u2 h; simp [sys_addPlanetAux] at h
  | cons sys rest ih =>
    intro u2 h s f
    by_cases hts : sys.name = ts
    · simp only [sys_addPlanetAux, if_pos hts, Option.some.injEq] at h
      subst h
      rfl
    · simp only [sys_addPlanetAux, if_neg hts] at h
      cases hrec : sys_addPlanetAux rest ts pn with
      | none => rw [hrec] at h; simp at h
      | some u3 =>
        rw [hrec] at h
        simp only [Option.map_some', Option.some.injEq] at h
        subst h
        simp only [univFleetCount]
        by_cases hs : sys.name = s
        · rw [if_pos hs, if_pos hs]
        · rw [if_neg hs, if_neg hs]
          exact ih u3 hrec s f

lemma rmPlanet_planetCount (ts pn : String) :
    ∀ (u u2 : Universe), sys_rmPlanetAux u ts pn = some u2 →
    ∀ s p, univPlanetCount u2 s p = univPlanetCount u s p + (if ts = s ∧ pn = p then -1 else 0) := by
  intro u
  induction u with
  | nil => intro u2 h; simp [sys_rmPlanetAux] at h
  | cons sys rest ih =>
    intro u2 h s p
    by_cases hts : sys.name = ts
    · simp only [sys_rmPlanetAux, if_pos hts] at h
      by_cases hmem : memElem sys.planets pn = true
      · rw [if_pos hmem] at h
        simp only [Option.some.injEq] at h
        subst h
        simp only [univPlanetCount]
        by_cases hs : sys.name = s
        · have hname : ({ sys with planets := removeFirst sys.planets pn } : StarSystem).name = s := hs
          rw [if_pos hname, if_pos hs]
          have hts2 : ts = s := hts.symm.trans hs
          show countOcc (removeFirst sys.planets pn) p = _
          rw [countOcc_removeFirst _ _ _ hmem]
          by_cases hp : pn = p
          · simp [hts2, hp, sub_eq_add_neg]
          · simp [hp]
        · have hname : ({ sys with planets := removeFirst sys.planets pn } : StarSystem).name ≠ s := hs
          rw [if_neg hname, if_neg hs]
          have : ¬ (ts = s ∧ pn = p) := by
            intro ⟨h1, _⟩; exact hs (hts.symm ▸ h1)
          simp [this]
      · rw [if_neg hmem] at h
        simp at h
    · simp only [sys_rmPlanetAux, if_neg hts] at h
      cases hrec : sys_rmPlanetAux rest ts pn with
      | none => rw [hrec] at h; simp at h
      | some u3 =>
        rw [hrec] at h
        simp only [Option.map_some', Option.some.injEq] at h
        subst h
        simp only [univPlanetCount]
        by_cases hs : sys.name = s
        · rw [if_pos hs, if_pos hs]
          have : ¬ (ts = s ∧ pn = p) := by
            intro ⟨h1, _⟩; exact hts (h1 ▸ hs)
          simp [this]
        · rw [if_neg hs, if_neg hs]
          exact ih u3 hrec s p

lemma rmPlanet_fleetCount (ts pn : String) :
    ∀ (u u2 : Universe), sys_rmPlanetAux u ts pn = some u2 →
    ∀ s f, univFleetCount u2 s f = univFleetCount u s f := by
  intro u
  induction u with
  | nil => intro u2 h; simp [sys_rmPlanetAux] at h
  | cons sys rest ih =>
    intro u2 h s f
    by_cases hts : sys.name = ts
    · simp only [sys_rmPlanetAux, if_pos hts] at h
      by_cases hmem : memElem sys.planets pn = true
      · rw [if_pos hmem] at h
        simp only [Option.some.injEq] at h
        subst h
        rfl
      · rw [if_neg hmem] at h
        simp at h
    · simp only [sys_rmPlanetAux, if_neg hts] at h
      cases hrec : sys_rmPlanetAux rest ts pn with
      | none => rw [hrec] at h; simp at h
      | some u3 =>
        rw [hrec] at h
        simp only [Option.map_some', Option.some.injEq] at h
        subst h
        simp only [univFleetCount]
        by_cases hs : sys.name = s
        · rw [if_pos hs, if_pos hs]
        · rw [if_neg hs, if_neg hs]
          exact ih u3 hrec s f

lemma addFleet_fleetCount (ts : String) (g : SystemFleet) :
    ∀ (u u2 : Universe), sys_addFleetAux u ts g = some u2 →
    ∀ s f, univFleetCount u2 s f = univFleetCount u s f + (if ts = s ∧ g = f then 1 else 0) := by
  intro u
  induction u with
  | nil => intro u2 h; simp [sys_addFleetAux] at h
  | cons sys rest ih =>
    intro u2 h s f
    by_cases hts : sys.name = ts
    · simp only [sys_addFleetAux, if_pos hts, Option.some.injEq] at h
      subst h
      simp only [univFleetCount]
      by_cases hs : sys.name = s
      · have hname : ({ sys with fleets := sys.fleets ++ [g] } : StarSystem).name = s := hs
        rw [if_pos hname, if_pos hs]
        have hts2 : ts = s := hts.symm.trans hs
        show countOcc (sys.fleets ++ [g]) f = _
        rw [countOcc_append_singleton]
        simp [hts2]
      · have hname : ({ sys with fleets := sys.fleets ++ [g] } : StarSystem).name ≠ s := hs
        rw [if_neg hname, if_neg hs]
        have : ¬ (ts = s ∧ g = f) := by
          intro ⟨h1, _⟩; exact hs (hts.symm ▸ h1)
        simp [this]
    · simp only [sys_addFleetAux, if_neg hts] at h
      cases hrec : sys_addFleetAux rest ts g with
      | none => rw [hrec] at h; simp at h
      | some u3 =>
        rw [hrec] at h
        simp only [Option.map_some', Option.some.injEq] at h
        subst h
        simp only [univFleetCount]
        by_cases hs : sys.name = s
        · rw [if_pos hs, if_pos hs]
          have : ¬ (ts = s ∧ g = f) := by
            intro ⟨h1, _⟩; exact hts (h1 ▸ hs)
          simp [this]
        · rw [if_neg hs, if_neg hs]
          exact ih u3 hrec s f

lemma addFleet_planetCount (ts : String) (g : SystemFleet) :
    ∀ (u u2 : Universe), sys_addFleetAux u ts g = some u2 →
    ∀ s p, univPlanetCount u2 s p = univPlanetCount u s p := by
  intro u
  induction u with
  | nil => intro u2 h; simp [sys_addFleetAux] at h
  | cons sys rest ih =>
    intro u2 h s p
    by_cases hts : sys.name = ts
    · simp only [sys_addFleetAux, if_pos hts, Option.some.injEq] at h
      subst h
      rfl
    · simp only [sys_addFleetAux, if_neg hts] at h
      cases hrec : sys_addFleetAux rest ts g with
      | none => rw [hrec] at h; simp at h
      | some u3 =>
        rw [hrec] at h
        simp only [Option.map_some', Option.some.injEq] at h
        subst h
        simp only [univPlanetCount]
        by_cases hs : sys.name = s
        · rw [if_pos hs, if_pos hs]
        · rw [if_neg hs, if_neg hs]
          exact ih u3 hrec s p

lemma rmFleet_fleetCount (ts : String) (g : SystemFleet) :
    ∀ (u u2 : Universe), sys_rmFleetAux u ts g = some u2 →
    ∀ s f, univFleetCount u2 s f = univFleetCount u s f + (if ts = s ∧ g = f then -1 else 0) := by
  intro u
  induction u with
  | nil => intro u2 h; simp [sys_rmFleetAux] at h
  | cons sys rest ih =>
    intro u2 h s f
    by_cases hts : sys.name = ts
    · simp only [sys_rmFleetAux, if_pos hts] at h
      by_cases hmem : memElem sys.fleets g = true
      · rw [if_pos hmem] at h
        simp only [Option.some.injEq] at h
        subst h
        simp only [univFleetCount]
        by_cases hs : sys.name = s
        · have hname : ({ sys with fleets := removeFirst sys.fleets g } : StarSystem).name = s := hs
          rw [if_pos hname, if_pos hs]
          have hts2 : ts = s := hts.symm.trans hs
          show countOcc (removeFirst sys.fleets g) f = _
          rw [countOcc_removeFirst _ _ _ hmem]
          by_cases hg : g = f
          · simp [hts2, hg, sub_eq_add_neg]
          · simp [hg]
        · have hname : ({ sys with fleets := removeFirst sys.fleets g } : StarSystem).name ≠ s := hs
          rw [if_neg hname, if_neg hs]
          have : ¬ (ts = s ∧ g = f) := by
            intro ⟨h1, _⟩; exact hs (hts.symm ▸ h1)
          simp [this]
      · rw [if_neg hmem] at h
        simp at h
    · simp only [sys_rmFleetAux, if_neg hts] at h
      cases hrec : sys_rmFleetAux rest ts g with
      | none => rw [hrec] at h; simp at h
      | some u3 =>
        rw [hrec] at h
        simp only [Option.map_some', Option.some.injEq] at h
        subst h
        simp only [univFleetCount]
        by_cases hs : sys.name = s
        · rw [if_pos hs, if_pos hs]
          have : ¬ (ts = s ∧ g = f) := by
            intro ⟨h1, _⟩; exact hts (h1 ▸ hs)
          simp [this]
        · rw [if_neg hs, if_neg hs]
          exact ih u3 hrec s f

lemma rmFleet_planetCount (ts : String) (g : SystemFleet) :
    ∀ (u u2 : Universe), sys_rmFleetAux u ts g = some u2 →
    ∀ s p, univPlanetCount u2 s p = univPlanetCount u s p := by
  intro u
  induction u with
  | nil => intro u2 h; simp [sys_rmFleetAux] at h
  | cons sys rest ih =>
    intro u2 h s p
    by_cases hts : sys.name = ts
    · simp only [sys_rmFleetAux, if_pos hts] at h
      by_cases hmem : memElem sys.fleets g = true
      · rw [if_pos hmem] at h
        simp only [Option.some.injEq] at h
        subst h
        rfl
      · rw [if_neg hmem] at h
        simp at h
    · simp only [sys_rmFleetAux, if_neg hts] at h
      cases hrec : sys_rmFleetAux rest ts g with
      | none => rw [hrec] at h; simp at h
      | some u3 =>
        rw [hrec] at h
        simp only [Option.map_some', Option.some.injEq] at h
        subst h
        simp only [univPlanetCount]
        by_cases hs : sys.name = s
        · rw [if_pos hs, if_pos hs]
        · rw [if_neg hs, if_neg hs]
          exact ih u3 hrec s p

/-! ## Per-hunk effect on the world counts -/

/-- Signed effect of one successful hunk on the count of planet `p` in
system `s`. -/
def hunkPlanetDelta (h : UniHunk) (s p : String) : Int :=
  match h.type, h.u, h.target.name with
  | .PLANET_ADD, .pname (some pn), some ts => if ts = s ∧ pn = p then 1 else 0
  | .PLANET_REMOVE, .pname (some pn), some ts => if ts = s ∧ pn = p then -1 else 0
  | _, _, _ => 0

/-- Signed effect of one successful hunk on the count of fleet `f` in
system `s`. -/
def hunkFleetDelta (h : UniHunk) (s : String) (f : SystemFleet) : Int :=
  match h.type, h.u, h.target.name with
  | .FLEET_ADD, .fleet g, some ts => if ts = s ∧ g = f then 1 else 0
  | .FLEET_REMOVE, .fleet g, some ts => if ts = s ∧ g = f then -1 else 0
  | _, _, _ => 0

def hunkListPlanetDelta : List UniHunk → String → String → Int
  | [], _, _ => 0
  | h :: hs, s, p => hunkPlanetDelta h s p + hunkListPlanetDelta hs s p

def hunkListFleetDelta : List UniHunk → String → SystemFleet → Int
  | [], _, _ => 0
  | h :: hs, s, f => hunkFleetDelta h s f + hunkListFleetDelta hs s f

lemma patchHunk_type_ne_none (h : UniHunk) (u u2 : Universe)
    (hh : diff_patchHunk h u = some u2) : h.type ≠ .NONE := by
  intro hty
  obtain ⟨t, ty, pl⟩ := h
  simp only at hty
  subst hty
  cases pl <;> simp [diff_patchHunk] at hh

lemma patchHunk_planetCount (h : UniHunk) (u u2 : Universe)
    (hh : diff_patchHunk h u = some u2) (s p : String) :
    univPlanetCount u2 s p = univPlanetCount u s p + hunkPlanetDelta h s p := by
  obtain ⟨⟨tt, tname⟩, ty, pl⟩ := h
  cases ty <;> rcases pl with pn | f <;>
    simp only [diff_patchHunk, system_addPlanet, system_rmPlanet, system_addFleet,
      system_rmFleet] at hh
  all_goals try exact Option.noConfusion hh
  case PLANET_ADD.pname =>
    rcases tname with _ | ts
    · simp at hh
    · rcases pn with _ | p0
      · simp at hh
      · rw [addPlanet_planetCount ts p0 u u2 hh s p]
        simp [hunkPlanetDelta]
  case PLANET_REMOVE.pname =>
    rcases tname with _ | ts
    · simp at hh
    · rcases pn with _ | p0
      · simp at hh
      · rw [rmPlanet_planetCount ts p0 u u2 hh s p]
        simp [hunkPlanetDelta]
  case FLEET_ADD.fleet =>
    rcases tname with _ | ts
    · simp at hh
    · rw [addFleet_planetCount ts f u u2 hh s p]
      simp [hunkPlanetDelta]
  case FLEET_REMOVE.fleet =>
    rcases tname with _ | ts
    · simp at hh
    · rw [rmFleet_planetCount ts f u u2 hh s p]
      simp [hunkPlanetDelta]

lemma patchHunk_fleetCount (h : UniHunk) (u u2 : Universe)
    (hh : diff_patchHunk h u = some u2) (s : String) (f : SystemFleet) :
    univFleetCount u2 s f = univFleetCount u s f + hunkFleetDelta h s f := by
  obtain ⟨⟨tt, tname⟩, ty, pl⟩ := h
  cases ty <;> rcases pl with pn | g <;>
    simp only [diff_patchHunk, system_addPlanet, system_rmPlanet, system_addFleet,
      system_rmFleet] at hh
  all_goals try exact Option.noConfusion hh
  case PLANET_ADD.pname =>
    rcases tname with _ | ts
    · simp at hh
    · rcases pn with _ | p0
      · simp at hh
      · rw [addPlanet_fleetCount ts p0 u u2 hh s f]
        simp [hunkFleetDelta]
  case PLANET_REMOVE.pname =>
    rcases tname with _ | ts
    · simp at hh
    · rcases pn with _ | p0
      · simp at hh
      · rw [rmPlanet_fleetCount ts p0 u u2 hh s f]
        simp [hunkFleetDelta]
  case FLEET_ADD.fleet =>
    rcases tname with _ | ts
    · simp at hh
    · rw [addFleet_fleetCount ts g u u2 hh s f]
      simp [hunkFleetDelta]
  case FLEET_REMOVE.fleet =>
    rcases tname with _ | ts
    · simp at hh
    · rw [rmFleet_fleetCount ts g u u2 hh s f]
      simp [hunkFleetDelta]

/-! ## Chains of hunks -/

lemma applyHunkList_append (xs ys : List UniHunk) (u : Universe) :
    applyHunkList (xs ++ ys) u = (applyHunkList xs u).bind (applyHunkList ys) := by
  induction xs generalizing u with
  | nil => simp [applyHunkList]
  | cons x xs ih =>
    simp only [List.cons_append, applyHunkList]
    cases diff_patchHunk x u with
    | none => simp
    | some u1 => simp [ih]

lemma applyHunkList_planetCount :
    ∀ (hs : List UniHunk) (u v : Universe), applyHunkList hs u = some v →
    ∀ s p, univPlanetCount v s p = univPlanetCount u s p + hunkListPlanetDelta hs s p := by
  intro hs
  induction hs with
  | nil =>
    intro u v h s p
    simp only [applyHunkList, Option.some.injEq] at h
    subst h
    simp [hunkListPlanetDelta]
  | cons x xs ih =>
    intro u v h s p
    simp only [applyHunkList] at h
    cases hx : diff_patchHunk x u with
    | none => rw [hx] at h; simp at h
    | some u1 =>
      rw [hx] at h
      simp only [Option.some_bind] at h
      have h1 := patchHunk_planetCount x u u1 hx s p
      have h2 := ih u1 v h s p
      simp only [hunkListPlanetDelta]
      omega

lemma applyHunkList_fleetCount :
    ∀ (hs : List UniHunk) (u v : Universe), applyHunkList hs u = some v →
    ∀ s f, univFleetCount v s f = univFleetCount u s f + hunkListFleetDelta hs s f := by
  intro hs
  induction hs with
  | nil =>
    intro u v h s f
    simp only [applyHunkList, Option.some.injEq] at h
    subst h
    simp [hunkListFleetDelta]
  | cons x xs ih =>
    intro u v h s f
    simp only [applyHunkList] at h
    cases hx : diff_patchHunk x u with
    | none => rw [hx] at h; simp at h
    | some u1 =>
      rw [hx] at h
      simp only [Option.some_bind] at h
      have h1 := patchHunk_fleetCount x u u1 hx s f
      have h2 := ih u1 v h s f
      simp only [hunkListFleetDelta]
      omega

lemma applyHunkList_types :
    ∀ (hs : List UniHunk) (u v : Universe), applyHunkList hs u = some v →
    ∀ h, h ∈ hs → h.type ≠ .NONE := by
  intro hs
  induction hs with
  | nil => intro u v _ h hmem; simp at hmem
  | cons x xs ih =>
    intro u v hl h hmem
    simp only [applyHunkList] at hl
    cases hx : diff_patchHunk x u with
    | none => rw [hx] at hl; simp at hl
    | some u1 =>
      rw [hx] at hl
      simp only [Option.some_bind] at hl
      rcases List.mem_cons.mp hmem with h1 | h1
      · subst h1; exact patchHunk_type_ne_none h u u1 hx
      · exact ih u1 v hl h h1

/-! ## Inversion -/

lemma hunkPlanetDelta_invert (h : UniHunk) (s p : String) :
    hunkPlanetDelta (hunk_invert h) s p = - hunkPlanetDelta h s p := by
  obtain ⟨⟨tt, tname⟩, ty, pl⟩ := h
  cases ty <;> rcases pl with pn | f <;> rcases tname with _ | ts <;>
    try rcases pn with _ | p0
  all_goals simp only [hunk_invert, hunk_invertType, hunkPlanetDelta]
  all_goals try simp
  all_goals split_ifs <;> simp

lemma hunkFleetDelta_invert (h : UniHunk) (s : String) (f : SystemFleet) :
    hunkFleetDelta (hunk_invert h) s f = - hunkFleetDelta h s f := by
  obtain ⟨⟨tt, tname⟩, ty, pl⟩ := h
  cases ty <;> rcases pl with pn | g <;> rcases tname with _ | ts <;>
    try rcases pn with _ | p0
  all_goals simp only [hunk_invert, hunk_invertType, hunkFleetDelta]
  all_goals try simp
  all_goals split_ifs <;> simp

lemma hunkListPlanetDelta_invert (hs : List UniHunk) (s p : String) :
    hunkListPlanetDelta (hs.map hunk_invert) s p = - hunkListPlanetDelta hs s p := by
  induction hs with
  | nil => simp [hunkListPlanetDelta]
  | cons x xs ih =>
    simp only [List.map_cons, hunkListPlanetDelta, ih, hunkPlanetDelta_invert]
    ring

lemma hunkListFleetDelta_invert (hs : List UniHunk) (s : String) (f : SystemFleet) :
    hunkListFleetDelta (hs.map hunk_invert) s f = - hunkListFleetDelta hs s f := by
  induction hs with
  | nil => simp [hunkListFleetDelta]
  | cons x xs ih =>
    simp only [List.map_cons, hunkListFleetDelta, ih, hunkFleetDelta_invert]
    ring

/-! ## The revert loop under an all-successes hypothesis -/

lemma diff_invertForRevert_eq (t : UniHunkType) (ht : t ≠ .NONE) :
    diff_invertForRevert t = some (hunk_invertType t) := by
  cases t
  · exact absurd rfl ht
  all_goals rfl

lemma diff_revertHunks_of_strict :
    ∀ (hs : List UniHunk) (u v : Universe),
    (∀ h ∈ hs, h.type ≠ UniHunkType.NONE) →
    applyHunkList (hs.map hunk_invert) u = some v →
    diff_revertHunks hs u = (v, hs.map hunk_invert) := by
  intro hs
  induction hs with
  | nil =>
    intro u v _ h2
    simp only [List.map_nil, applyHunkList, Option.some.injEq] at h2
    subst h2
    rfl
  | cons x xs ih =>
    intro u v hne h2
    have hx : x.type ≠ UniHunkType.NONE := hne x (by simp)
    have hinv := diff_invertForRevert_eq x.type hx
    simp only [List.map_cons, applyHunkList] at h2
    cases hpx : diff_patchHunk (hunk_invert x) u with
    | none => rw [hpx] at h2; simp at h2
    | some u1 =>
      rw [hpx] at h2
      simp only [Option.some_bind] at h2
      have hrec := ih u1 v (fun h hm => hne h (List.mem_cons_of_mem x hm)) h2
      simp only [diff_revertHunks, hinv]
      have hxe : ({ x with type := hunk_invertType x.type } : UniHunk) = hunk_invert x := rfl
      rw [hxe, hpx]
      simp only [Option.getD_some]
      rw [hrec]
      rfl

/-! ## Counts determine the membership observers -/

lemma univHasPlanet_iff_pos (u : Universe) (s p : String) :
    univHasPlanet u s p = true ↔ 0 < univPlanetCount u s p := by
  induction u with
  | nil => simp [univHasPlanet, univPlanetCount]
  | cons sys rest ih =>
    simp only [univHasPlanet, univPlanetCount]
    by_cases hs : sys.name = s
    · simp [hs, memElem_iff_pos]
    · simp [hs, ih]

lemma univHasFleet_iff_pos (u : Universe) (s : String) (f : SystemFleet) :
    univHasFleet u s f = true ↔ 0 < univFleetCount u s f := by
  induction u with
  | nil => simp [univHasFleet, univFleetCount]
  | cons sys rest ih =>
    simp only [univHasFleet, univFleetCount]
    by_cases hs : sys.name = s
    · simp [hs, memElem_iff_pos]
    · simp [hs, ih]

lemma univHasPlanet_eq_of_count (u1 u2 : Universe) (s p : String)
    (h : univPlanetCount u1 s p = univPlanetCount u2 s p) :
    univHasPlanet u1 s p = univHasPlanet u2 s p := by
  have i1 := univHasPlanet_iff_pos u1 s p
  have i2 := univHasPlanet_iff_pos u2 s p
  cases hb1 : univHasPlanet u1 s p <;> cases hb2 : univHasPlanet u2 s p <;>
    simp_all <;> omega

lemma univHasFleet_eq_of_count (u1 u2 : Universe) (s : String) (f : SystemFleet)
    (h : univFleetCount u1 s f = univFleetCount u2 s f) :
    univHasFleet u1 s f = univHasFleet u2 s f := by
  have i1 := univHasFleet_iff_pos u1 s f
  have i2 := univHasFleet_iff_pos u2 s f
  cases hb1 : univHasFleet u1 s f <;> cases hb2 : univHasFleet u2 s f <;>
    simp_all <;> omega

/-! ## The patch fold only extends the applied/failed sequences -/

/-- `b` extends `a` by some new applied and failed hunks; when no new hunk
failed, the new applied hunks form a strictly succeeding chain from
`a.univ` to `b.univ`. -/
def AccExt (a b : PatchAcc) : Prop :=
  ∃ hs fs, b.applied = a.applied ++ hs ∧ b.failed = a.failed ++ fs ∧
    (fs = [] → applyHunkList hs a.univ = some b.univ)

lemma accExt_refl (a : PatchAcc) : AccExt a a :=
  ⟨[], [], by simp, by simp, fun _ => by simp [applyHunkList]⟩

lemma accExt_trans (a b c : PatchAcc) (h1 : AccExt a b) (h2 : AccExt b c) : AccExt a c := by
  obtain ⟨hs1, fs1, ha1, hf1, hc1⟩ := h1
  obtain ⟨hs2, fs2, ha2, hf2, hc2⟩ := h2
  refine ⟨hs1 ++ hs2, fs1 ++ fs2, ?_, ?_, ?_⟩
  · rw [ha2, ha1, List.append_assoc]
  · rw [hf2, hf1, List.append_assoc]
  · intro hfs
    rcases List.append_eq_nil.mp hfs with ⟨hfs1, hfs2⟩
    rw [applyHunkList_append, hc1 hfs1]
    simpa using hc2 hfs2

lemma accExt_patchPlanetNode (tn : Option String) (cur : XmlNode) (a : PatchAcc) :
    AccExt a (diff_patchPlanetNode tn cur a) := by
  simp only [diff_patchPlanetNode]
  cases hp : diff_patchHunk (diff_planetHunk tn cur a.hvar) a.univ with
  | some u2 =>
    refine ⟨[diff_planetHunk tn cur a.hvar], [], by simp, by simp, fun _ => ?_⟩
    simp [applyHunkList, hp]
  | none =>
    exact ⟨[], [diff_planetHunk tn cur a.hvar], by simp, by simp, fun hfs => by simp at hfs⟩

lemma accExt_patchFleetNode (tn : Option String) (cur : XmlNode) (a : PatchAcc) :
    AccExt a (diff_patchFleetNode tn cur a) := by
  simp only [diff_patchFleetNode]
  cases hp : diff_patchHunk (diff_fleetHunk tn cur a.hvar) a.univ with
  | some u2 =>
    refine ⟨[diff_fleetHunk tn cur a.hvar], [], by simp, by simp, fun _ => ?_⟩
    simp [applyHunkList, hp]
  | none =>
    exact ⟨[], [diff_fleetHunk tn cur a.hvar], by simp, by simp, fun hfs => by simp at hfs⟩

lemma accExt_systemChild (tn : Option String) (a : PatchAcc) (cur : XmlNode) :
    AccExt a (diff_patchSystemChild tn a cur) := by
  simp only [diff_patchSystemChild]
  split_ifs
  · exact accExt_patchPlanetNode tn cur a
  · exact accExt_patchFleetNode tn cur a
  · exact accExt_refl a

lemma accExt_foldl {α : Type} (step : PatchAcc → α → PatchAcc)
    (hstep : ∀ a x, AccExt a (step a x)) :
    ∀ (l : List α) (a : PatchAcc), AccExt a (l.foldl step a) := by
  intro l
  induction l with
  | nil => intro a; exact accExt_refl a
  | cons x xs ih =>
    intro a
    simp only [List.foldl_cons]
    exact accExt_trans _ _ _ (hstep a x) (ih (step a x))

lemma accExt_node (a : PatchAcc) (node : XmlNode) : AccExt a (diff_patchNode a node) := by
  simp only [diff_patchNode]
  split_ifs
  · exact accExt_foldl _ (fun b cur => accExt_systemChild (node.attr "name") b cur) node.children a
  · exact accExt_refl a

/-- When a whole `diff_patch` pass produced no failed hunk, its applied
hunks applied strictly in order transform the starting universe into the
final one. -/
lemma diff_patch_chain (parent : XmlNode) (u0 : Universe) (h0 : UniHunk)
    (hfail : (parent.children.foldl diff_patchNode ⟨u0, [], [], h0⟩).failed = []) :
    applyHunkList (parent.children.foldl diff_patchNode ⟨u0, [], [], h0⟩).applied u0 =
      some (parent.children.foldl diff_patchNode ⟨u0, [], [], h0⟩).univ := by
  obtain ⟨hs, fs, h1, h2, h3⟩ :=
    accExt_foldl diff_patchNode accExt_node parent.children ⟨u0, [], [], h0⟩
  simp only at h1 h2
  rw [List.nil_append] at h1 h2
  rw [h2] at hfail
  subst hfail
  rw [h1]
  exact h3 rfl

/-! ## Stack bookkeeping lemmas -/

lemma diff_get_of_not_applied (name : String) (stack : List UniDiff)
    (h : diff_isApplied name stack = false) : diff_get name stack = none := by
  unfold diff_isApplied at h
  cases hg : diff_get name stack
  · rfl
  · rw [hg] at h; simp at h

lemma diff_get_append_last (name : String) (l : List UniDiff) (d : UniDiff)
    (h : diff_get name l = none) :
    diff_get name (l ++ [d]) = if d.name = some name then some d else none := by
  induction l with
  | nil => simp [diff_get]
  | cons e es ih =>
    simp only [diff_get] at h ⊢
    by_cases he : e.name = some name
    · rw [if_pos he] at h; exact Option.noConfusion h
    · rw [if_neg he] at h ⊢
      exact ih h

lemma diff_removeFromStack_append_last (name : String) (l : List UniDiff) (d : UniDiff)
    (h : diff_get name l = none) (hd : d.name = some name) :
    diff_removeFromStack name (l ++ [d]) = l := by
  induction l with
  | nil => simp [diff_removeFromStack, hd]
  | cons e es ih =>
    simp only [diff_get] at h
    by_cases he : e.name = some name
    · rw [if_pos he] at h; exact Option.noConfusion h
    · rw [if_neg he] at h
      simp only [List.cons_append, diff_removeFromStack, if_neg he]
      rw [show es.append [d] = es ++ [d] from rfl, ih h]

/-! ## The scan loop of diff_apply -/

lemma diff_findUnidiff_spec :
    ∀ (ns : List XmlNode) (name : String) (nd : XmlNode),
    diff_findUnidiff ns name = some nd → nd.tag = "unidiff" ∧ nd.attr "name" = some name := by
  intro ns
  induction ns with
  | nil => intro name nd h; simp [diff_findUnidiff] at h
  | cons n rest ih =>
    intro name nd h
    simp only [diff_findUnidiff] at h
    split_ifs at h with hc
    · cases h; exact hc
    · exact ih name nd h

lemma diff_findUnidiff_ne_nil (ns : List XmlNode) (name : String) (nd : XmlNode)
    (h : diff_findUnidiff ns name = some nd) : ns.isEmpty = false := by
  cases ns
  · simp [diff_findUnidiff] at h
  · rfl

/-! ## The three return paths of diff_apply -/

lemma diff_apply_already (doc : XmlNode) (name : String) (st : GameState) (h0 : UniHunk)
    (hA : diff_isApplied name st.stack = true) :
    diff_apply doc name st h0 = ⟨0, st, false, false, false, false⟩ := by
  simp [diff_apply, hA]

lemma diff_apply_found (doc : XmlNode) (name : String) (st : GameState) (h0 : UniHunk)
    (nd : XmlNode)
    (hA : diff_isApplied name st.stack = false)
    (hRoot : doc.tag = "unidiffs")
    (hFind : diff_findUnidiff doc.children name = some nd) :
    diff_apply doc name st h0 = ⟨0, diff_patch nd st h0, true, true, true, false⟩ := by
  have hne := diff_findUnidiff_ne_nil doc.children name nd hFind
  simp [diff_apply, hA, hRoot, hne, hFind]

lemma diff_apply_notfound (doc : XmlNode) (name : String) (st : GameState) (h0 : UniHunk)
    (hA : diff_isApplied name st.stack = false)
    (hRoot : doc.tag = "unidiffs")
    (hne : doc.children.isEmpty = false)
    (hFind : diff_findUnidiff doc.children name = none) :
    diff_apply doc name st h0 = ⟨-1, st, true, true, true, true⟩ := by
  simp [diff_apply, hA, hRoot, hne, hFind]

/-! ## Concrete fixtures -/

/-- An arbitrary value for the reused uninitialized `hunk` stack variable. -/
def hunkVar0 : UniHunk := ⟨⟨.NONE, none⟩, .NONE, .pname none⟩

def oneSysUniv : Universe := [⟨"sys", [], []⟩]

def cState0 : GameState := ⟨[], oneSysUniv⟩

def xmlPlanet (pn txt : String) : XmlNode := .mk "planet" [("name", pn)] txt []

def xmlSystem (sn : String) (cs : List XmlNode) : XmlNode := .mk "system" [("name", sn)] "" cs

def xmlUnidiff (dn : String) (cs : List XmlNode) : XmlNode := .mk "unidiff" [("name", dn)] "" cs

def xmlUnidiffs (cs : List XmlNode) : XmlNode := .mk "unidiffs" [] "" cs

def foundDoc : XmlNode := xmlUnidiffs [xmlUnidiff "d" []]

def malformedRootDoc : XmlNode := .mk "wrong" [] "" [xmlUnidiff "d" []]

def emptyUnidiffsDoc : XmlNode := .mk "unidiffs" [] "" []

def cHunkAddA : UniHunk := ⟨⟨.SYSTEM, some "sys"⟩, .PLANET_ADD, .pname (some "A")⟩

def cHunkRmA : UniHunk := ⟨⟨.SYSTEM, some "sys"⟩, .PLANET_REMOVE, .pname (some "A")⟩

def cAcc0 : PatchAcc := ⟨oneSysUniv, [], [], hunkVar0⟩

/-! ## Claim theorems -/

/-- C2: applying a diff name that is already in the active stack returns 0
without creating a second Diff record, without touching the world model and
without loading the definitions document; `diff_isApplied` stays true and
the stack length (`diff_nstack`) is unchanged. -/
theorem C2_apply_idempotent (doc : XmlNode) (name : String) (st : GameState) (h0 : UniHunk)
    (hA : diff_isApplied name st.stack = true) :
    diff_apply doc name st h0 = ⟨0, st, false, false, false, false⟩ ∧
    (diff_apply doc name st h0).st.stack = st.stack ∧
    (diff_apply doc name st h0).st.univ = st.univ ∧
    diff_isApplied name (diff_apply doc name st h0).st.stack = true ∧
    (diff_apply doc name st h0).st.stack.length = st.stack.length ∧
    (diff_apply doc name st h0).docLoaded = false := by
  have he := diff_apply_already doc name st h0 hA
  rw [he]
  exact ⟨rfl, rfl, rfl, hA, rfl, rfl⟩

/-- C2 witness: applying the already-active name "x" at a concrete state. -/
theorem C2_apply_idempotent_witness :
    diff_isApplied "x" ([⟨some "x", [], []⟩] : List UniDiff) = true ∧
    diff_apply foundDoc "x" ⟨[⟨some "x", [], []⟩], oneSysUniv⟩ hunkVar0 =
      ⟨0, ⟨[⟨some "x", [], []⟩], oneSysUniv⟩, false, false, false, false⟩ :=
  ⟨rfl, (C2_apply_idempotent foundDoc "x" ⟨[⟨some "x", [], []⟩], oneSysUniv⟩ hunkVar0 rfl).1⟩

/-- C3: on a definitions document whose root element is not `unidiffs`, and
likewise on one whose root has no children, `diff_apply` on a not-yet-active
name returns 0 — the success value, not the failure the claim requires —
while leaving the state unchanged. -/
theorem C3_malformed_returns_zero :
    diff_apply malformedRootDoc "d" cState0 hunkVar0 =
      ⟨0, cState0, true, false, false, false⟩ ∧
    diff_apply emptyUnidiffsDoc "d" cState0 hunkVar0 =
      ⟨0, cState0, true, false, false, false⟩ := by
  decide

/-- C8: both the success exit path and the not-found exit path of
`diff_apply` release the parsed document and the raw buffer, but the two
malformed-document exit paths return with neither released, contradicting
the claim. -/
theorem C8_release_paths :
    ((diff_apply foundDoc "d" cState0 hunkVar0).docFreed = true ∧
     (diff_apply foundDoc "d" cState0 hunkVar0).bufFreed = true) ∧
    ((diff_apply foundDoc "zzz" cState0 hunkVar0).ret = -1 ∧
     (diff_apply foundDoc "zzz" cState0 hunkVar0).docFreed = true ∧
     (diff_apply foundDoc "zzz" cState0 hunkVar0).bufFreed = true) ∧
    ((diff_apply malformedRootDoc "d" cState0 hunkVar0).docLoaded = true ∧
     (diff_apply malformedRootDoc "d" cState0 hunkVar0).docFreed = false ∧
     (diff_apply malformedRootDoc "d" cState0 hunkVar0).bufFreed = false) ∧
    ((diff_apply emptyUnidiffsDoc "d" cState0 hunkVar0).docLoaded = true ∧
     (diff_apply emptyUnidiffsDoc "d" cState0 hunkVar0).docFreed = false ∧
     (diff_apply emptyUnidiffsDoc "d" cState0 hunkVar0).bufFreed = false) := by
  decide

/-- C7 counterexample: "gone" appears in no `unidiff` element of the
document, yet `diff_apply` returns 0 (not a failure) and issues no warning,
because the name is already on the stack and the early idempotence exit
wins; the claim as stated is false for such names. -/
theorem C7_counterexample :
    (diff_findUnidiff foundDoc.children "gone").isSome = false ∧
    (diff_apply foundDoc "gone" ⟨[⟨some "gone", [], []⟩], oneSysUniv⟩ hunkVar0).ret = 0 ∧
    (diff_apply foundDoc "gone" ⟨[⟨some "gone", [], []⟩], oneSysUniv⟩ hunkVar0).warned = false := by
  decide

/-- C7 amended: for every name that is not already active, when the
definitions document is well-formed and the name appears in no `unidiff`
element, `diff_apply` returns -1, warns, and leaves the state (hence
`diff_nstack` and every Diff record) unchanged. -/
theorem C7_amended_notfound (doc : XmlNode) (name : String) (st : GameState) (h0 : UniHunk)
    (hA : diff_isApplied name st.stack = false)
    (hRoot : doc.tag = "unidiffs")
    (hne : doc.children.isEmpty = false)
    (hFind : diff_findUnidiff doc.children name = none) :
    (diff_apply doc name st h0).ret = -1 ∧
    (diff_apply doc name st h0).st = st ∧
    (diff_apply doc name st h0).warned = true ∧
    (diff_apply doc name st h0).st.stack.length = st.stack.length := by
  rw [diff_apply_notfound doc name st h0 hA hRoot hne hFind]
  exact ⟨rfl, rfl, rfl, rfl⟩

/-- C7 witness: applying the absent name "zzz" at a concrete state. -/
theorem C7_amended_notfound_witness :
    (diff_apply foundDoc "zzz" cState0 hunkVar0).ret = -1 ∧
    (diff_apply foundDoc "zzz" cState0 hunkVar0).st = cState0 ∧
    (diff_apply foundDoc "zzz" cState0 hunkVar0).warned = true ∧
    (diff_apply foundDoc "zzz" cState0 hunkVar0).st.stack.length = cState0.stack.length :=
  C7_amended_notfound foundDoc "zzz" cState0 hunkVar0 rfl rfl rfl rfl

/-- The revert loop's call trace on proper hunk types: every applied hunk
is inverted and replayed, in original order. -/
lemma diff_revertHunks_trace :
    ∀ (hs : List UniHunk) (u : Universe),
    (∀ h ∈ hs, h.type ≠ UniHunkType.NONE) →
    (diff_revertHunks hs u).2 = hs.map hunk_invert := by
  intro hs
  induction hs with
  | nil => intro u _; rfl
  | cons x xs ih =>
    intro u hne
    have hx := hne x (by simp)
    have hinv := diff_invertForRevert_eq x.type hx
    simp only [diff_revertHunks, hinv, List.map_cons]
    have hxe : ({ x with type := hunk_invertType x.type } : UniHunk) = hunk_invert x := rfl
    rw [hxe]
    rw [ih _ (fun h hm => hne h (List.mem_cons_of_mem x hm))]

/-- C5: for every active diff, removal walks the `applied` sequence in its
original order (index 0 upward) and re-applies, through the world-mutation
interface, each hunk with PlanetAdd and PlanetRemove swapped and FleetAdd
and FleetRemove swapped, target and payload unchanged; in particular, for
H1 (add planet "A") followed by H2 (remove planet "A"), removal replays
invert(H1) and then invert(H2). -/
theorem C5_remove_replays_in_order :
    (∀ (hs : List UniHunk) (u : Universe),
      (∀ h ∈ hs, h.type ≠ UniHunkType.NONE) →
      (diff_revertHunks hs u).2 = hs.map hunk_invert) ∧
    (∀ h : UniHunk, (hunk_invert h).target = h.target ∧ (hunk_invert h).u = h.u) ∧
    (hunk_invertType .PLANET_ADD = .PLANET_REMOVE ∧
     hunk_invertType .PLANET_REMOVE = .PLANET_ADD ∧
     hunk_invertType .FLEET_ADD = .FLEET_REMOVE ∧
     hunk_invertType .FLEET_REMOVE = .FLEET_ADD) ∧
    (∀ (name : String) (st : GameState) (d : UniDiff),
      diff_get name st.stack = some d →
      (diff_remove name st).univ = (diff_revertHunks d.applied st.univ).1) ∧
    ((diff_revertHunks [cHunkAddA, cHunkRmA] oneSysUniv).2 =
      [⟨⟨.SYSTEM, some "sys"⟩, .PLANET_REMOVE, .pname (some "A")⟩,
       ⟨⟨.SYSTEM, some "sys"⟩, .PLANET_ADD, .pname (some "A")⟩]) := by
  refine ⟨diff_revertHunks_trace, fun h => ⟨rfl, rfl⟩, ⟨rfl, rfl, rfl, rfl⟩, ?_, by decide⟩
  intro name st d hg
  simp [diff_remove, hg]

/-- C5 witness: the add-then-remove diff of the claim replays the two
inverted hunks in original application order. -/
theorem C5_remove_replays_in_order_witness :
    (diff_revertHunks [cHunkAddA, cHunkRmA] oneSysUniv).2 =
      List.map hunk_invert [cHunkAddA, cHunkRmA] :=
  (C5_remove_replays_in_order).1 [cHunkAddA, cHunkRmA] oneSysUniv (by decide)

def cFleet150 : XmlNode := .mk "fleet" [("name", "f"), ("chance", "150")] "add" []

/-- C9 counterexample: a fleet element with chance="150" is stored with
spawn chance 150, outside the declared 0..100 bound — no clamping or
validation occurs. -/
theorem C9_counterexample :
    (diff_patchFleetNode (some "sys") cFleet150 cAcc0).applied =
      [⟨⟨.SYSTEM, some "sys"⟩, .FLEET_ADD, .fleet ⟨"f", 150⟩⟩] ∧
    ¬ ((150 : Int) ≤ 100) := by
  decide

/-- C9 amended: the spawn chance stored in a fleet hunk is exactly the
`atoi` of the `chance` attribute — an integer percentage, but with the
0..100 bound holding only when the attribute's parsed value lies in it. -/
theorem C9_amended_chance_unclamped (tn : Option String) (cur : XmlNode) (prev : UniHunk)
    (cs : String) (hc : cur.attr "chance" = some cs) :
    (diff_fleetHunk tn cur prev).u =
      UniHunkPayload.fleet ⟨(cur.attr "name").getD "", atoi cs⟩ := by
  simp [diff_fleetHunk, hc]

/-- C9 witness: the chance="150" element stores atoi "150". -/
theorem C9_amended_chance_unclamped_witness :
    cFleet150.attr "chance" = some "150" ∧
    (diff_fleetHunk (some "sys") cFleet150 hunkVar0).u =
      UniHunkPayload.fleet ⟨"f", atoi "150"⟩ :=
  ⟨rfl, C9_amended_chance_unclamped (some "sys") cFleet150 hunkVar0 "150" rfl⟩

def cBogusPlanet : XmlNode := xmlPlanet "B" "bogus"

def cSysBogus : XmlNode := xmlSystem "sys" [xmlPlanet "A" "add", cBogusPlanet]

/-- C10: a planet or fleet element whose text is neither "add" nor "remove"
still has its hunk applied and recorded (into applied or failed), and the
hunk's type field is not assigned for this element: it keeps the value left
in the reused loop variable by the previously parsed hunk (the initial,
indeterminate value for the first such element); concretely, after a
planet "A" add element, a planet element with text "bogus" is recorded
with type PlanetAdd. -/
theorem C10_hunk_type_retention :
    (∀ (tn : Option String) (cur : XmlNode) (prev : UniHunk),
      cur.text ≠ "add" → cur.text ≠ "remove" →
      (diff_planetHunk tn cur prev).type = prev.type ∧
      (diff_fleetHunk tn cur prev).type = prev.type) ∧
    (∀ (tn : Option String) (cur : XmlNode) (a : PatchAcc),
      (diff_patchPlanetNode tn cur a).applied = a.applied ++ [diff_planetHunk tn cur a.hvar] ∨
      (diff_patchPlanetNode tn cur a).failed = a.failed ++ [diff_planetHunk tn cur a.hvar]) ∧
    (∀ (tn : Option String) (cur : XmlNode) (a : PatchAcc),
      (diff_patchFleetNode tn cur a).applied = a.applied ++ [diff_fleetHunk tn cur a.hvar] ∨
      (diff_patchFleetNode tn cur a).failed = a.failed ++ [diff_fleetHunk tn cur a.hvar]) ∧
    ((diff_patchNode cAcc0 cSysBogus).applied.map UniHunk.type =
      [UniHunkType.PLANET_ADD, UniHunkType.PLANET_ADD]) := by
  refine ⟨?_, ?_, ?_, by decide⟩
  · intro tn cur prev h1 h2
    constructor
    · simp [diff_planetHunk, h1, h2]
    · simp [diff_fleetHunk, h1, h2]
  · intro tn cur a
    simp only [diff_patchPlanetNode]
    cases hp : diff_patchHunk (diff_planetHunk tn cur a.hvar) a.univ
    · exact Or.inr rfl
    · exact Or.inl rfl
  · intro tn cur a
    simp only [diff_patchFleetNode]
    cases hp : diff_patchHunk (diff_fleetHunk tn cur a.hvar) a.univ
    · exact Or.inr rfl
    · exact Or.inl rfl

/-- C10 witness: with the loop variable holding the planet-add hunk, a
"bogus"-text element keeps type PlanetAdd. -/
theorem C10_hunk_type_retention_witness :
    (diff_planetHunk (some "sys") cBogusPlanet cHunkAddA).type = cHunkAddA.type ∧
    (diff_fleetHunk (some "sys") cBogusPlanet cHunkAddA).type = cHunkAddA.type :=
  (C10_hunk_type_retention).1 (some "sys") cBogusPlanet cHunkAddA (by decide) (by decide)

def cDocAddRm : XmlNode :=
  xmlUnidiffs [xmlUnidiff "d" [xmlSystem "sys" [xmlPlanet "A" "add", xmlPlanet "A" "remove"]]]

/-- C1 counterexample: in the diff [add planet "A", remove planet "A"] every
hunk is accepted at apply time (the failed sequence is empty), yet
apply-then-remove leaves planet "A" present in system "sys" although it was
absent before the apply — forward-order replay of the inverses makes the
first inverted hunk fail and the second re-add the planet. -/
theorem C1_counterexample :
    ((diff_apply cDocAddRm "d" cState0 hunkVar0).st.stack.map UniDiff.failed = [[]]) ∧
    univHasPlanet cState0.univ "sys" "A" = false ∧
    univHasPlanet
      (diff_remove "d" (diff_apply cDocAddRm "d" cState0 hunkVar0).st).univ "sys" "A" = true ∧
    (diff_remove "d" (diff_apply cDocAddRm "d" cState0 hunkVar0).st).stack = [] := by
  decide

/-- C1 amended: for every diff whose every hunk is accepted by the
world-mutation interface at apply time AND whose every inverted hunk is
accepted again during removal, `diff_apply` followed by `diff_remove`
restores every system's planet set and fleet set to its pre-apply state
(for any order of planet/fleet hunks inside the diff) and restores the
diff stack. -/
theorem C1_amended_apply_remove_identity
    (doc nd : XmlNode) (name : String) (st : GameState) (h0 : UniHunk)
    (a : PatchAcc) (v : Universe)
    (hA : diff_isApplied name st.stack = false)
    (hRoot : doc.tag = "unidiffs")
    (hFind : diff_findUnidiff doc.children name = some nd)
    (hacc : nd.children.foldl diff_patchNode ⟨st.univ, [], [], h0⟩ = a)
    (hNoFail : a.failed = [])
    (hReplay : applyHunkList (a.applied.map hunk_invert) a.univ = some v) :
    (diff_remove name (diff_apply doc name st h0).st).stack = st.stack ∧
    (∀ s p, univHasPlanet (diff_remove name (diff_apply doc name st h0).st).univ s p =
      univHasPlanet st.univ s p) ∧
    (∀ s f, univHasFleet (diff_remove name (diff_apply doc name st h0).st).univ s f =
      univHasFleet st.univ s f) := by
  have hattr := (diff_findUnidiff_spec doc.children name nd hFind).2
  have happly := diff_apply_found doc name st h0 nd hA hRoot hFind
  have hget0 := diff_get_of_not_applied name st.stack hA
  have hchain : applyHunkList a.applied st.univ = some a.univ := by
    have hc := diff_patch_chain nd st.univ h0 (by rw [hacc]; exact hNoFail)
    rw [hacc] at hc
    exact hc
  have htypes := applyHunkList_types a.applied st.univ a.univ hchain
  have hrev := diff_revertHunks_of_strict a.applied a.univ v htypes hReplay
  have happlyst : (diff_apply doc name st h0).st =
      ⟨st.stack ++ [⟨nd.attr "name", a.applied, []⟩], a.univ⟩ := by
    rw [happly]
    show diff_patch nd st h0 = _
    simp only [diff_patch, hacc, hNoFail]
  have hdn : (⟨nd.attr "name", a.applied, []⟩ : UniDiff).name = some name := hattr
  have hget : diff_get name (st.stack ++ [⟨nd.attr "name", a.applied, []⟩]) =
      some ⟨nd.attr "name", a.applied, []⟩ := by
    rw [diff_get_append_last name st.stack _ hget0, if_pos hdn]
  have hrm_stack :
      (diff_remove name ⟨st.stack ++ [⟨nd.attr "name", a.applied, []⟩], a.univ⟩).stack =
        st.stack := by
    unfold diff_remove
    rw [hget]
    exact diff_removeFromStack_append_last name st.stack _ hget0 hdn
  have hrm_univ :
      (diff_remove name ⟨st.stack ++ [⟨nd.attr "name", a.applied, []⟩], a.univ⟩).univ = v := by
    unfold diff_remove
    rw [hget]
    show (diff_revertHunks a.applied a.univ).1 = v
    rw [hrev]
  have hpc : ∀ s p, univPlanetCount v s p = univPlanetCount st.univ s p := by
    intro s p
    have h1 := applyHunkList_planetCount a.applied st.univ a.univ hchain s p
    have h2 := applyHunkList_planetCount (a.applied.map hunk_invert) a.univ v hReplay s p
    have h3 := hunkListPlanetDelta_invert a.applied s p
    omega
  have hfc : ∀ s f, univFleetCount v s f = univFleetCount st.univ s f := by
    intro s f
    have h1 := applyHunkList_fleetCount a.applied st.univ a.univ hchain s f
    have h2 := applyHunkList_fleetCount (a.applied.map hunk_invert) a.univ v hReplay s f
    have h3 := hunkListFleetDelta_invert a.applied s f
    omega
  refine ⟨?_, ?_, ?_⟩
  · rw [happlyst]
    exact hrm_stack
  · intro s p
    rw [happlyst, hrm_univ]
    exact univHasPlanet_eq_of_count v st.univ s p (hpc s p)
  · intro s f
    rw [happlyst, hrm_univ]
    exact univHasFleet_eq_of_count v st.univ s f (hfc s f)

def cDocAddOnly : XmlNode := xmlUnidiffs [xmlUnidiff "dw" [xmlSystem "sys" [xmlPlanet "A" "add"]]]

/-- C1 witness: a one-hunk diff (add planet "A") whose apply and whose
inverse replay both succeed; apply-then-remove restores the planet set. -/
theorem C1_amended_apply_remove_identity_witness :
    univHasPlanet
      (diff_remove "dw" (diff_apply cDocAddOnly "dw" cState0 hunkVar0).st).univ "sys" "A" =
      univHasPlanet cState0.univ "sys" "A" ∧
    (diff_remove "dw" (diff_apply cDocAddOnly "dw" cState0 hunkVar0).st).stack = cState0.stack :=
  ⟨(C1_amended_apply_remove_identity cDocAddOnly
      (xmlUnidiff "dw" [xmlSystem "sys" [xmlPlanet "A" "add"]]) "dw" cState0 hunkVar0
      ⟨[⟨"sys", ["A"], []⟩], [cHunkAddA], [], cHunkAddA⟩ oneSysUniv
      rfl rfl rfl (by decide) rfl (by decide)).2.1 "sys" "A",
   (C1_amended_apply_remove_identity cDocAddOnly
      (xmlUnidiff "dw" [xmlSystem "sys" [xmlPlanet "A" "add"]]) "dw" cState0 hunkVar0
      ⟨[⟨"sys", ["A"], []⟩], [cHunkAddA], [], cHunkAddA⟩ oneSysUniv
      rfl rfl rfl (by decide) rfl (by decide)).1⟩

/-- C4: a diff is applied with overall success (return 0) whenever its
definition is found, regardless of hunk failures; each parsed planet/fleet
hunk is routed to the diff's failed sequence exactly when the
world-mutation interface rejects it and to the applied sequence exactly
when it accepts it (appended at the end, preserving order); and removal
replays inverses computed only from the applied sequence — the failed
sequence does not influence the reverted universe. -/
theorem C4_partial_failure_tolerance :
    (∀ (doc : XmlNode) (name : String) (st : GameState) (h0 : UniHunk) (nd : XmlNode),
      diff_isApplied name st.stack = false → doc.tag = "unidiffs" →
      diff_findUnidiff doc.children name = some nd →
      (diff_apply doc name st h0).ret = 0) ∧
    (∀ (tn : Option String) (cur : XmlNode) (a : PatchAcc),
      (diff_patchHunk (diff_planetHunk tn cur a.hvar) a.univ = none →
        (diff_patchPlanetNode tn cur a).failed = a.failed ++ [diff_planetHunk tn cur a.hvar] ∧
        (diff_patchPlanetNode tn cur a).applied = a.applied) ∧
      (∀ u2, diff_patchHunk (diff_planetHunk tn cur a.hvar) a.univ = some u2 →
        (diff_patchPlanetNode tn cur a).applied = a.applied ++ [diff_planetHunk tn cur a.hvar] ∧
        (diff_patchPlanetNode tn cur a).failed = a.failed)) ∧
    (∀ (tn : Option String) (cur : XmlNode) (a : PatchAcc),
      (diff_patchHunk (diff_fleetHunk tn cur a.hvar) a.univ = none →
        (diff_patchFleetNode tn cur a).failed = a.failed ++ [diff_fleetHunk tn cur a.hvar] ∧
        (diff_patchFleetNode tn cur a).applied = a.applied) ∧
      (∀ u2, diff_patchHunk (diff_fleetHunk tn cur a.hvar) a.univ = some u2 →
        (diff_patchFleetNode tn cur a).applied = a.applied ++ [diff_fleetHunk tn cur a.hvar] ∧
        (diff_patchFleetNode tn cur a).failed = a.failed)) ∧
    (∀ (name : String) (hs fs1 fs2 : List UniHunk) (rest : List UniDiff) (u : Universe),
      (diff_remove name ⟨⟨some name, hs, fs1⟩ :: rest, u⟩).univ =
        (diff_revertHunks hs u).1 ∧
      (diff_remove name ⟨⟨some name, hs, fs1⟩ :: rest, u⟩).univ =
        (diff_remove name ⟨⟨some name, hs, fs2⟩ :: rest, u⟩).univ) := by
  refine ⟨?_, ?_, ?_, ?_⟩
  · intro doc name st h0 nd hA hRoot hFind
    rw [diff_apply_found doc name st h0 nd hA hRoot hFind]
  · intro tn cur a
    constructor
    · intro hnone
      simp [diff_patchPlanetNode, hnone]
    · intro u2 hsome
      simp [diff_patchPlanetNode, hsome]
  · intro tn cur a
    constructor
    · intro hnone
      simp [diff_patchFleetNode, hnone]
    · intro u2 hsome
      simp [diff_patchFleetNode, hsome]
  · intro name hs fs1 fs2 rest u
    have h1 : diff_get name (⟨some name, hs, fs1⟩ :: rest : List UniDiff) =
        some ⟨some name, hs, fs1⟩ := by simp [diff_get]
    have h2 : diff_get name (⟨some name, hs, fs2⟩ :: rest : List UniDiff) =
        some ⟨some name, hs, fs2⟩ := by simp [diff_get]
    exact ⟨by simp [diff_remove, h1], by simp [diff_remove, h1, h2]⟩

def cMixDoc : XmlNode :=
  xmlUnidiffs [xmlUnidiff "dm" [xmlSystem "bad" [xmlPlanet "P" "add"],
                               xmlSystem "sys" [xmlPlanet "Q" "add"]]]

def cHunkBadP : UniHunk := ⟨⟨.SYSTEM, some "bad"⟩, .PLANET_ADD, .pname (some "P")⟩

def cHunkAddQ : UniHunk := ⟨⟨.SYSTEM, some "sys"⟩, .PLANET_ADD, .pname (some "Q")⟩

/-- C4 witness: the spec's test case — one hunk on a non-existent system
and one valid hunk; overall success, invalid hunk in failed, valid hunk in
applied, and removal's reverted universe does not depend on failed. -/
theorem C4_partial_failure_tolerance_witness :
    (diff_apply cMixDoc "dm" cState0 hunkVar0).ret = 0 ∧
    (diff_apply cMixDoc "dm" cState0 hunkVar0).st.stack =
      [⟨some "dm", [cHunkAddQ], [cHunkBadP]⟩] ∧
    (diff_patchPlanetNode (some "bad") (xmlPlanet "P" "add") cAcc0).failed =
      cAcc0.failed ++ [diff_planetHunk (some "bad") (xmlPlanet "P" "add") cAcc0.hvar] ∧
    (diff_patchPlanetNode (some "sys") (xmlPlanet "Q" "add") cAcc0).applied =
      cAcc0.applied ++ [diff_planetHunk (some "sys") (xmlPlanet "Q" "add") cAcc0.hvar] ∧
    (diff_remove "dm" ⟨[⟨some "dm", [cHunkAddQ], [cHunkBadP]⟩], oneSysUniv⟩).univ =
      (diff_remove "dm" ⟨[⟨some "dm", [cHunkAddQ], []⟩], oneSysUniv⟩).univ :=
  ⟨(C4_partial_failure_tolerance).1 cMixDoc "dm" cState0 hunkVar0
      (xmlUnidiff "dm" [xmlSystem "bad" [xmlPlanet "P" "add"],
                        xmlSystem "sys" [xmlPlanet "Q" "add"]]) rfl rfl rfl,
   by decide,
   (((C4_partial_failure_tolerance).2.1 (some "bad") (xmlPlanet "P" "add") cAcc0).1
      (by decide)).1,
   (((C4_partial_failure_tolerance).2.1 (some "sys") (xmlPlanet "Q" "add") cAcc0).2
      [⟨"sys", ["Q"], []⟩] (by decide)).1,
   ((C4_partial_failure_tolerance).2.2.2 "dm" [cHunkAddQ] [cHunkBadP] [] [] oneSysUniv).2⟩

lemma diff_isApplied_append_false (m : String) (l : List UniDiff) (d : UniDiff)
    (h1 : diff_isApplied m l = false) (h2 : d.name ≠ some m) :
    diff_isApplied m (l ++ [d]) = false := by
  unfold diff_isApplied
  rw [diff_get_append_last m l d (diff_get_of_not_applied m l h1), if_neg h2]
  rfl

/-- A found apply pushes exactly one new diff record, named after the
`name` attribute of the matched `unidiff` element. -/
lemma diff_apply_found_stack (doc : XmlNode) (name : String) (st : GameState) (h0 : UniHunk)
    (nd : XmlNode)
    (hA : diff_isApplied name st.stack = false)
    (hRoot : doc.tag = "unidiffs")
    (hFind : diff_findUnidiff doc.children name = some nd) :
    ∃ A F, (diff_apply doc name st h0).st.stack = st.stack ++ [⟨some name, A, F⟩] := by
  refine ⟨(nd.children.foldl diff_patchNode ⟨st.univ, [], [], h0⟩).applied,
          (nd.children.foldl diff_patchNode ⟨st.univ, [], [], h0⟩).failed, ?_⟩
  rw [diff_apply_found doc name st h0 nd hA hRoot hFind]
  show (diff_patch nd st h0).stack = _
  simp only [diff_patch]
  rw [(diff_findUnidiff_spec doc.children name nd hFind).2]

/-- The re-apply loop of `diff_load`: folding `diff_apply` over a list of
diffs whose names are pairwise distinct, none already active, and all
present in the definitions document appends one record per name, in
order. -/
lemma diff_load_fold (defs : XmlNode) (h0 : UniHunk) (hRoot : defs.tag = "unidiffs") :
    ∀ (ds : List UniDiff) (names : List String) (s : GameState),
    ds.map UniDiff.name = names.map some →
    names.Nodup →
    (∀ n ∈ names, diff_isApplied n s.stack = false) →
    (∀ n ∈ names, (diff_findUnidiff defs.children n).isSome = true) →
    (List.foldl (fun st2 d => (diff_apply defs (d.name.getD "") st2 h0).st) s ds).stack.map
        UniDiff.name
      = s.stack.map UniDiff.name ++ names.map some := by
  intro ds
  induction ds with
  | nil =>
    intro names s hmap _ _ _
    cases names with
    | nil => simp
    | cons n rest => simp at hmap
  | cons d ds ih =>
    intro names s hmap hnd hnotapp hfound
    cases names with
    | nil => simp at hmap
    | cons n rest =>
      simp only [List.map_cons, List.cons.injEq] at hmap
      obtain ⟨hdn, hmaprest⟩ := hmap
      obtain ⟨hn_notin, hrest_nd⟩ := List.nodup_cons.mp hnd
      have hgetD : d.name.getD "" = n := by rw [hdn]; rfl
      have hA : diff_isApplied n s.stack = false := hnotapp n (by simp)
      obtain ⟨nd, hnd2⟩ : ∃ nd, diff_findUnidiff defs.children n = some nd :=
        Option.isSome_iff_exists.mp (hfound n (by simp))
      obtain ⟨A, F, hstack⟩ := diff_apply_found_stack defs n s h0 nd hA hRoot hnd2
      simp only [List.foldl_cons, hgetD]
      have hnotapp2 : ∀ m ∈ rest, diff_isApplied m (diff_apply defs n s h0).st.stack = false := by
        intro m hm
        rw [hstack]
        refine diff_isApplied_append_false m s.stack _
          (hnotapp m (List.mem_cons_of_mem n hm)) ?_
        show some n ≠ some m
        intro he
        exact hn_notin (Option.some.inj he ▸ hm)
      have hfound2 : ∀ m ∈ rest, (diff_findUnidiff defs.children m).isSome = true :=
        fun m hm => hfound m (List.mem_cons_of_mem n hm)
      rw [ih rest (diff_apply defs n s h0).st hmaprest hrest_nd hnotapp2 hfound2, hstack]
      simp

/-- C6: `diff_save` emits a `diffs` container holding exactly the active
diffs' names, one `diff` text element per diff, in stack order; running
`diff_load` on that output against any starting state first clears the
whole stack and then re-applies those names in order, so the resulting
active-name sequence equals the saved one (a name whose apply fails is
simply skipped — the load loop is total and never aborts). -/
theorem C6_save_load_roundtrip (defs : XmlNode) (h0 : UniHunk) (stackA : List UniDiff)
    (names : List String) (stB : GameState)
    (hRoot : defs.tag = "unidiffs")
    (hnames : stackA.map UniDiff.name = names.map some)
    (hnd : names.Nodup)
    (hfound : ∀ n ∈ names, (diff_findUnidiff defs.children n).isSome = true) :
    (diff_save stackA).tag = "diffs" ∧
    (diff_save stackA).children.map XmlNode.text = names ∧
    (diff_load defs (.mk "naev_save" [] "" [diff_save stackA]) stB h0).stack.map UniDiff.name =
      names.map some := by
  have hgds : ∀ l : List String, l.map (fun n => (some n).getD "") = l := by
    intro l
    induction l with
    | nil => rfl
    | cons x xs ihl => simp [ihl]
  have hmap : stackA.map (fun d => d.name.getD "") = names := by
    calc stackA.map (fun d => d.name.getD "")
        = (stackA.map UniDiff.name).map (fun o => o.getD "") := by
          rw [List.map_map]; rfl
      _ = (names.map some).map (fun o => o.getD "") := by rw [hnames]
      _ = names := by rw [List.map_map]; exact hgds names
  refine ⟨rfl, ?_, ?_⟩
  · simp only [diff_save, XmlNode.children, List.map_map]
    calc stackA.map (XmlNode.text ∘ fun d => XmlNode.mk "diff" [] (d.name.getD "") [])
        = stackA.map (fun d => d.name.getD "") := by rfl
      _ = names := hmap
  · simp only [diff_load, XmlNode.children, List.foldl_cons, List.foldl_nil]
    have htag : (diff_save stackA).tag = "diffs" := rfl
    rw [if_pos htag]
    simp only [diff_loadDiffsNode, diff_save, XmlNode.children]
    rw [List.foldl_map]
    simp only [XmlNode.tag, XmlNode.text, eq_self_iff_true, if_true]
    have hload := diff_load_fold defs h0 hRoot stackA names (diff_clear stB) hnames hnd
      (fun n _ => rfl) hfound
    simpa using hload

def cDefsXY : XmlNode := xmlUnidiffs [xmlUnidiff "X" [], xmlUnidiff "Y" []]

def cStackXY : List UniDiff := [⟨some "X", [], []⟩, ⟨some "Y", [], []⟩]

def cStateJunk : GameState := ⟨[⟨some "junk", [], []⟩], oneSysUniv⟩

/-- C6 witness: saving the stack ["X","Y"] and loading the result from a
state with a different active stack reproduces active names X then Y. -/
theorem C6_save_load_roundtrip_witness :
    (diff_load cDefsXY (.mk "naev_save" [] "" [diff_save cStackXY]) cStateJunk
        hunkVar0).stack.map UniDiff.name = (["X", "Y"] : List String).map some :=
  (C6_save_load_roundtrip cDefsXY hunkVar0 cStackXY ["X", "Y"] cStateJunk rfl rfl
    (by decide) (by decide)).2.2
